import Mathlib

/-!
Shallow embedding of the Lights-Off puzzle engine.

The source is a TypeScript React application.  The engine consists of:
* `toggleCellAndNeighbors` — the move primitive (flip a cell and its
  in-range orthogonal neighbors),
* `createSolvableBoard` — the scramble generator,
* `handleCellClick` — the click handler of the game-state controller.

A `CellState` in the source is a record `{ isOn : boolean }`; it is
modelled as a `Bool` (`true` = on).  A board is a JS array of arrays,
modelled as `List (List Bool)`.  The in-place write
`newBoard[r][c].isOn = !newBoard[r][c].isOn` performed on the deep copy
is modelled by the functional index update `modifyIdx`.
-/

namespace LightsOff

/-- A board: a grid of cells, `true` = on.  (`CellState[][]` in the source.) -/
abbrev Board := List (List Bool)

/-- Functional update of the element at an index; out-of-range indices
leave the list unchanged.  Models the array write on the deep copy. -/
def modifyIdx {α : Type*} (f : α → α) : Nat → List α → List α
  | _, [] => []
  | 0, a :: l => f a :: l
  | n + 1, a :: l => a :: modifyIdx f n l

/-- Read the cell at row `i`, column `j`; out-of-range reads give `false`. -/
def getCell (b : Board) (i j : Nat) : Bool :=
  (b.getD i []).getD j false

/-- The guarded single-cell toggle closure from the source:
`if (r >= 0 && r < boardSize && c >= 0 && c < boardSize) newBoard[r][c].isOn = !newBoard[r][c].isOn`. -/
def toggle1 (boardSize : Int) (b : Board) (r c : Int) : Board :=
  if 0 ≤ r ∧ r < boardSize ∧ 0 ≤ c ∧ c < boardSize then
    modifyIdx (modifyIdx (fun x => !x) c.toNat) r.toNat b
  else b

/-- The move primitive `toggleCellAndNeighbors(row, col, currentBoard, boardSize)`:
toggles the clicked cell, then top, bottom, left, right neighbors, each
guarded by the bounds check.  The deep copy of the source is a no-op on
immutable values. -/
def toggleCellAndNeighbors (row col : Int) (currentBoard : Board) (boardSize : Int) : Board :=
  toggle1 boardSize
    (toggle1 boardSize
      (toggle1 boardSize
        (toggle1 boardSize
          (toggle1 boardSize currentBoard row col)
          (row - 1) col)
        (row + 1) col)
      row (col - 1))
    row (col + 1)

/-- `b` is a well-formed `N×N` board: `N` rows, each of length `N`. -/
def Square (b : Board) (N : Nat) : Prop :=
  b.length = N ∧ ∀ i < N, (b.getD i []).length = N

instance (b : Board) (N : Nat) : Decidable (Square b N) :=
  inferInstanceAs (Decidable (b.length = N ∧ ∀ i < N, (b.getD i []).length = N))

theorem length_modifyIdx {α : Type*} (f : α → α) (n : Nat) (l : List α) :
    (modifyIdx f n l).length = l.length := by
  induction l generalizing n with
  | nil => cases n <;> rfl
  | cons a t ih => cases n <;> simp [modifyIdx, ih]

theorem getD_modifyIdx {α : Type*} (f : α → α) (d : α) (n m : Nat) (l : List α) :
    (modifyIdx f n l).getD m d =
      if n = m ∧ m < l.length then f (l.getD m d) else l.getD m d := by
  induction l generalizing n m with
  | nil => simp [modifyIdx]
  | cons a t ih =>
    cases n with
    | zero =>
      cases m with
      | zero => simp [modifyIdx]
      | succ m => simp [modifyIdx]
    | succ n =>
      cases m with
      | zero => simp [modifyIdx]
      | succ m =>
        simp only [modifyIdx, List.getD_cons_succ, ih, List.length_cons]
        split_ifs <;> first | rfl | omega

theorem square_toggle1 {b : Board} {N : Nat} (hsq : Square b N) (r c : Int) :
    Square (toggle1 N b r c) N := by
  unfold toggle1
  split
  · refine ⟨by rw [length_modifyIdx]; exact hsq.1, fun i hi => ?_⟩
    rw [getD_modifyIdx]
    split
    · rw [length_modifyIdx]; exact hsq.2 i hi
    · exact hsq.2 i hi
  · exact hsq

/-- Pointwise effect of one guarded toggle on an in-range cell of a
well-formed board: the cell flips exactly when it is the toggle's target. -/
theorem getCell_toggle1 {b : Board} {N : Nat} (hsq : Square b N)
    {i j : Nat} (hi : i < N) (hj : j < N) (r c : Int) :
    getCell (toggle1 N b r c) i j =
      if r = (i : Int) ∧ c = (j : Int) then !(getCell b i j) else getCell b i j := by
  unfold toggle1 getCell
  split_ifs with hguard heq heq
  · rw [getD_modifyIdx]
    rw [if_pos ⟨by omega, by rw [hsq.1]; exact hi⟩]
    rw [getD_modifyIdx]
    rw [if_pos ⟨by omega, by rw [hsq.2 i hi]; exact hj⟩]
  · rw [getD_modifyIdx]
    split_ifs with h1
    · rw [getD_modifyIdx]
      split_ifs with h2
      · exfalso; apply heq; omega
      · rfl
    · rfl
  · exfalso; apply hguard; omega
  · rfl

/-- The plus-shaped hit indicator of the move primitive at target
`(row, col)`: the accumulated flip the five guarded toggles apply to the
in-range cell `(i, j)`. -/
def plusHit (row col : Int) (i j : Nat) : Bool :=
  xor (xor (xor (xor (decide (row = i ∧ col = j)) (decide (row - 1 = i ∧ col = j)))
    (decide (row + 1 = i ∧ col = j))) (decide (row = i ∧ col - 1 = j)))
    (decide (row = i ∧ col + 1 = j))

/-- The five toggled coordinates are pairwise distinct, so the accumulated
flip is the indicator of the plus-shaped set. -/
theorem plusHit_eq_decide (row col : Int) (i j : Nat) :
    plusHit row col i j =
      decide ((row = i ∧ col = j) ∨ (row - 1 = i ∧ col = j) ∨ (row + 1 = i ∧ col = j) ∨
        (row = i ∧ col - 1 = j) ∨ (row = i ∧ col + 1 = j)) := by
  unfold plusHit
  by_cases h1 : row = (i : Int) ∧ col = (j : Int) <;>
    by_cases h2 : row - 1 = (i : Int) ∧ col = (j : Int) <;>
      by_cases h3 : row + 1 = (i : Int) ∧ col = (j : Int) <;>
        by_cases h4 : row = (i : Int) ∧ col - 1 = (j : Int) <;>
          by_cases h5 : row = (i : Int) ∧ col + 1 = (j : Int) <;>
            first
              | (exfalso; omega)
              | (simp [h1, h2, h3, h4, h5] <;> omega)

theorem if_not_eq_xor (x : Bool) (p : Prop) [Decidable p] :
    (if p then !x else x) = xor x (decide p) := by
  split_ifs with h <;> simp [h]

theorem square_toggleCellAndNeighbors {b : Board} {N : Nat} (hsq : Square b N)
    (row col : Int) : Square (toggleCellAndNeighbors row col b N) N := by
  unfold toggleCellAndNeighbors
  exact square_toggle1 (square_toggle1 (square_toggle1 (square_toggle1
    (square_toggle1 hsq _ _) _ _) _ _) _ _) _ _

/-- Pointwise characterization of the move primitive on in-range cells of a
well-formed board: a cell's new value is its old value XORed with the
plus-pattern hit indicator. -/
theorem getCell_toggleCellAndNeighbors {b : Board} {N : Nat} (hsq : Square b N)
    {i j : Nat} (hi : i < N) (hj : j < N) (row col : Int) :
    getCell (toggleCellAndNeighbors row col b N) i j =
      xor (getCell b i j) (plusHit row col i j) := by
  unfold toggleCellAndNeighbors
  have h0 := square_toggle1 hsq row col
  have h1 := square_toggle1 h0 (row - 1) col
  have h2 := square_toggle1 h1 (row + 1) col
  have h3 := square_toggle1 h2 row (col - 1)
  rw [getCell_toggle1 h3 hi hj, getCell_toggle1 h2 hi hj, getCell_toggle1 h1 hi hj,
    getCell_toggle1 h0 hi hj, getCell_toggle1 hsq hi hj]
  unfold plusHit
  simp only [if_not_eq_xor, Bool.xor_assoc]

/-- Two well-formed boards of the same size agreeing on every in-range cell
are equal. -/
theorem board_ext {a b : Board} {N : Nat} (ha : Square a N) (hb : Square b N)
    (h : ∀ i j, i < N → j < N → getCell a i j = getCell b i j) : a = b := by
  apply List.ext_getElem (by rw [ha.1, hb.1])
  intro i hia hib
  have hiN : i < N := by rw [← ha.1]; exact hia
  have hrowa : a[i] = a.getD i [] := by
    rw [List.getD_eq_getElem?_getD, List.getElem?_eq_getElem hia]; rfl
  have hrowb : b[i] = b.getD i [] := by
    rw [List.getD_eq_getElem?_getD, List.getElem?_eq_getElem hib]; rfl
  apply List.ext_getElem
  · rw [hrowa, hrowb, ha.2 i hiN, hb.2 i hiN]
  · intro j hja hjb
    have hjN : j < N := by rw [← ha.2 i hiN, ← hrowa]; exact hja
    have hca : a[i][j] = getCell a i j := by
      unfold getCell
      rw [← hrowa, List.getD_eq_getElem?_getD, List.getElem?_eq_getElem hja]; rfl
    have hcb : b[i][j] = getCell b i j := by
      unfold getCell
      rw [← hrowb, List.getD_eq_getElem?_getD, List.getElem?_eq_getElem hjb]; rfl
    rw [hca, hcb, h i j hiN hjN]

/-- Apply a finite sequence of moves, left to right, each through the move
primitive (the spec's "finite sequence of Move Primitive applications"). -/
def applyMoves (boardSize : Int) (ms : List (Int × Int)) (b : Board) : Board :=
  ms.foldl (fun acc m => toggleCellAndNeighbors m.1 m.2 acc boardSize) b

theorem square_applyMoves {N : Nat} (ms : List (Int × Int)) {b : Board}
    (hsq : Square b N) : Square (applyMoves N ms b) N := by
  induction ms generalizing b with
  | nil => exact hsq
  | cons m t ih => exact ih (square_toggleCellAndNeighbors hsq m.1 m.2)

/-- Pointwise characterization of a move sequence: a cell's final value is
its initial value XORed with the parity of the number of moves in the
sequence whose plus pattern hits the cell. -/
theorem getCell_applyMoves {N : Nat} (ms : List (Int × Int)) {b : Board}
    (hsq : Square b N) {i j : Nat} (hi : i < N) (hj : j < N) :
    getCell (applyMoves N ms b) i j =
      xor (getCell b i j)
        (decide ((ms.countP fun m => plusHit m.1 m.2 i j) % 2 = 1)) := by
  induction ms generalizing b with
  | nil => simp [applyMoves]
  | cons m t ih =>
    have hstep : applyMoves N (m :: t) b =
        applyMoves N t (toggleCellAndNeighbors m.1 m.2 b N) := rfl
    rw [hstep, ih (square_toggleCellAndNeighbors hsq m.1 m.2),
      getCell_toggleCellAndNeighbors hsq hi hj, List.countP_cons, Bool.xor_assoc]
    congr 1
    by_cases hm : plusHit m.1 m.2 i j = true <;>
      by_cases hn : (t.countP fun x => plusHit x.1 x.2 i j) % 2 = 1 <;>
        simp [hm, hn] <;> omega

/-- Applying the move primitive twice at the same target on any well-formed
board restores the board, for arbitrary integer targets. -/
theorem toggleCellAndNeighbors_involutive {N : Nat} {b : Board} (hsq : Square b N)
    (row col : Int) :
    toggleCellAndNeighbors row col (toggleCellAndNeighbors row col b N) N = b := by
  have h1 := square_toggleCellAndNeighbors hsq row col
  refine board_ext (square_toggleCellAndNeighbors h1 row col) hsq fun i j hi hj => ?_
  rw [getCell_toggleCellAndNeighbors h1 hi hj, getCell_toggleCellAndNeighbors hsq hi hj,
    Bool.xor_assoc, Bool.xor_self, Bool.xor_false]

/-- Two applications of the move primitive at arbitrary targets commute on
any well-formed board. -/
theorem toggleCellAndNeighbors_comm {N : Nat} {b : Board} (hsq : Square b N)
    (r1 c1 r2 c2 : Int) :
    toggleCellAndNeighbors r2 c2 (toggleCellAndNeighbors r1 c1 b N) N =
      toggleCellAndNeighbors r1 c1 (toggleCellAndNeighbors r2 c2 b N) N := by
  have h1 := square_toggleCellAndNeighbors hsq r1 c1
  have h2 := square_toggleCellAndNeighbors hsq r2 c2
  refine board_ext (square_toggleCellAndNeighbors h1 r2 c2)
    (square_toggleCellAndNeighbors h2 r1 c1) fun i j hi hj => ?_
  rw [getCell_toggleCellAndNeighbors h1 hi hj, getCell_toggleCellAndNeighbors hsq hi hj,
    getCell_toggleCellAndNeighbors h2 hi hj, getCell_toggleCellAndNeighbors hsq hi hj,
    Bool.xor_assoc, Bool.xor_assoc, Bool.xor_comm (plusHit r1 c1 i j)]

/-- Undoing a move sequence by replaying it in reverse order. -/
theorem applyMoves_reverse {N : Nat} (ms : List (Int × Int)) {b : Board}
    (hsq : Square b N) : applyMoves N ms.reverse (applyMoves N ms b) = b := by
  induction ms generalizing b with
  | nil => rfl
  | cons m t ih =>
    have hstep : applyMoves N (m :: t) b =
        applyMoves N t (toggleCellAndNeighbors m.1 m.2 b N) := rfl
    have happ : ∀ x, applyMoves N (t.reverse ++ [m]) x =
        applyMoves N [m] (applyMoves N t.reverse x) := fun x => List.foldl_append ..
    rw [List.reverse_cons, hstep, happ, ih (square_toggleCellAndNeighbors hsq m.1 m.2)]
    exact toggleCellAndNeighbors_involutive hsq m.1 m.2

/-- The number of occurrences of `m` in `l`, as a `countP`. -/
def occ {α : Type*} [DecidableEq α] (l : List α) (m : α) : Nat :=
  l.countP fun x => decide (x = m)

theorem occ_eq_count {α : Type*} [DecidableEq α] (l : List α) (m : α) :
    occ l m = l.count m := by
  unfold occ
  rw [List.count]
  apply List.countP_congr
  intro x _
  simp

/-- A list in which every element occurs an even number of times has an even
count of elements satisfying any predicate. -/
theorem countP_even_of_count_even {α : Type*} [DecidableEq α] (p : α → Bool) :
    ∀ (n : Nat) (l : List α), l.length = n → (∀ m, l.count m % 2 = 0) →
      l.countP p % 2 = 0 := by
  intro n
  induction n using Nat.strong_induction_on with
  | _ n ih =>
    intro l hlen hcount
    cases l with
    | nil => simp
    | cons a t =>
      have hmem : a ∈ t := by
        have h1 := hcount a
        rw [List.count_cons_self] at h1
        exact List.count_pos_iff.mp (by omega)
      have hperm : (a :: t).Perm (a :: a :: t.erase a) :=
        (List.perm_cons_erase hmem).cons a
      have hcount2 : ∀ m, (t.erase a).count m % 2 = 0 := by
        intro m
        by_cases hma : m = a
        · subst hma
          have h1 := hcount m
          rw [List.count_cons_self] at h1
          rw [List.count_erase_self]
          omega
        · have h1 := hcount m
          rw [List.count_cons_of_ne hma] at h1
          rw [List.count_erase_of_ne hma]
          exact h1
      have hlen2 : (t.erase a).length < n := by
        have h1 := List.length_erase_of_mem hmem
        have h2 : 0 < t.length := List.length_pos.mpr (List.ne_nil_of_mem hmem)
        simp only [List.length_cons] at hlen
        omega
      have ht := ih (t.erase a).length hlen2 (t.erase a) rfl hcount2
      rw [hperm.countP_eq p]
      by_cases hpa : p a <;> simp [List.countP_cons, hpa] <;> omega

/-- Lists whose per-element occurrence counts agree modulo 2 have the same
parity of elements satisfying any predicate. -/
theorem countP_parity_congr {α : Type*} [DecidableEq α] (p : α → Bool)
    (l1 l2 : List α) (h : ∀ m, occ l1 m % 2 = occ l2 m % 2) :
    l1.countP p % 2 = l2.countP p % 2 := by
  have happ : ∀ m, (l1 ++ l2).count m % 2 = 0 := by
    intro m
    rw [List.count_append]
    have hm := h m
    rw [occ_eq_count, occ_eq_count] at hm
    omega
  have h2 := countP_even_of_count_even p (l1 ++ l2).length (l1 ++ l2) rfl happ
  rw [List.countP_append] at h2
  omega

/-- The result of a move sequence depends only on the parity of each
coordinate's occurrence count, not on the order of application. -/
theorem applyMoves_parity_congr {N : Nat} {b : Board} (hsq : Square b N)
    (ms1 ms2 : List (Int × Int)) (h : ∀ m, occ ms1 m % 2 = occ ms2 m % 2) :
    applyMoves N ms1 b = applyMoves N ms2 b := by
  refine board_ext (square_applyMoves ms1 hsq) (square_applyMoves ms2 hsq)
    fun i j hi hj => ?_
  rw [getCell_applyMoves ms1 hsq hi hj, getCell_applyMoves ms2 hsq hi hj,
    countP_parity_congr (fun m => plusHit m.1 m.2 i j) ms1 ms2 h]

/-- Difficulty setting: `'easy' | 'medium' | 'hard'` in the source. -/
inductive Difficulty where
  | easy
  | medium
  | hard
deriving DecidableEq

/-- The scramble-move count from the source's `switch (difficulty)`:
`easy → Math.floor(boardSize * 1.5)`, `hard → boardSize * boardSize`,
`medium` (and default) `→ Math.floor(boardSize * 2.5)`.  The float products
`boardSize * 1.5` and `boardSize * 2.5` are exact, so the floors are the
natural-number divisions `3·N / 2` and `5·N / 2`. -/
def scrambleMovesCount (boardSize : Nat) : Difficulty → Nat
  | .easy => 3 * boardSize / 2
  | .hard => boardSize * boardSize
  | .medium => 5 * boardSize / 2

/-- The generator's inner `scrambleToggle(r, c, b)`: five guarded toggles in
the same order as the move primitive. -/
def scrambleToggle (boardSize : Int) (r c : Int) (b : Board) : Board :=
  toggle1 boardSize
    (toggle1 boardSize
      (toggle1 boardSize
        (toggle1 boardSize
          (toggle1 boardSize b r c)
          (r - 1) c)
        (r + 1) c)
      r (c - 1))
    r (c + 1)

/-- `scrambleToggle` duplicates the move primitive verbatim. -/
theorem scrambleToggle_eq (boardSize r c : Int) (b : Board) :
    scrambleToggle boardSize r c b = toggleCellAndNeighbors r c b boardSize := rfl

/-- The all-off starting board:
`Array(boardSize).fill(null).map(() => Array(boardSize).fill(null).map(() => ({isOn: false})))`. -/
def initialBoard (N : Nat) : Board :=
  List.replicate N (List.replicate N false)

/-- The all-off test `boardState.flat().every(cell => !cell.isOn)`. -/
def isAllOff (b : Board) : Bool :=
  b.flatten.all fun cell => !cell

/-- One generation attempt: starting from the all-off board, apply
`scrambleMovesCount` scramble toggles at the coordinates produced by the
random stream `rng` (modelling the source's
`Math.floor(Math.random() * boardSize)` draws, one pair per iteration). -/
def scrambleAttempt (N : Nat) (d : Difficulty) (rng : Nat → Nat × Nat) : Board :=
  (List.range (scrambleMovesCount N d)).foldl
    (fun boardState i =>
      scrambleToggle N ((rng i).1 : Int) ((rng i).2 : Int) boardState)
    (initialBoard N)

/-- The generator `createSolvableBoard(boardSize, difficulty)`.  The source
draws from `Math.random()` and retries by unbounded recursion when a
scramble cancels to all-off; the randomness is modelled by the injected
stream `rng` (attempt index → iteration index → coordinate pair) and the
recursion by explicit fuel, `none` meaning the retry bound was exhausted. -/
def createSolvableBoard (N : Nat) (d : Difficulty) (rng : Nat → Nat → Nat × Nat) :
    Nat → Option Board
  | 0 => none
  | fuel + 1 =>
    let boardState := scrambleAttempt N d (rng fuel)
    if isAllOff boardState then createSolvableBoard N d rng fuel
    else some boardState

/-- The game-state controller's session: the `board`, `boardSize`, `moves`
and `hasWon` React state owned by the `App` component. -/
structure GameSession where
  board : Board
  boardSize : Nat
  moves : Nat
  hasWon : Bool
deriving DecidableEq

/-- The click handler `handleCellClick(row, col)`: an early return when
`hasWon`; otherwise the move primitive produces the new board, the move
counter is incremented, and `hasWon` is set from the all-off test on the
new board.  (Sound and animation effects are presentation-only.) -/
def handleCellClick (s : GameSession) (row col : Int) : GameSession :=
  if s.hasWon then s
  else
    let newBoard := toggleCellAndNeighbors row col s.board s.boardSize
    { s with
        board := newBoard
        moves := s.moves + 1
        hasWon := isAllOff newBoard }

theorem getD_of_lt {α : Type*} (l : List α) (d : α) {i : Nat} (h : i < l.length) :
    l.getD i d = l[i] := by
  rw [List.getD_eq_getElem?_getD, List.getElem?_eq_getElem h]
  rfl

theorem square_initialBoard (N : Nat) : Square (initialBoard N) N := by
  constructor
  · simp [initialBoard]
  · intro i hi
    unfold initialBoard
    rw [getD_of_lt _ _ (by simpa using hi)]
    simp

theorem isAllOff_initialBoard (N : Nat) : isAllOff (initialBoard N) = true := by
  rw [isAllOff, List.all_eq_true]
  intro cell hc
  obtain ⟨row, hrow, hcell⟩ := List.mem_flatten.mp hc
  rw [List.eq_of_mem_replicate hrow] at hcell
  simp [List.eq_of_mem_replicate hcell]

/-- On a well-formed board, the all-off test holds exactly when every
in-range cell reads off. -/
theorem isAllOff_iff {b : Board} {N : Nat} (hsq : Square b N) :
    isAllOff b = true ↔ ∀ i < N, ∀ j < N, getCell b i j = false := by
  unfold isAllOff
  rw [List.all_eq_true]
  constructor
  · intro h i hi j hj
    have hib : i < b.length := by rw [hsq.1]; exact hi
    have hrow : b.getD i [] = b[i] := getD_of_lt _ _ hib
    have hjb : j < b[i].length := by rw [← hrow, hsq.2 i hi]; exact hj
    have hcell : (b.getD i []).getD j false = b[i][j] := by
      rw [hrow]; exact getD_of_lt _ _ hjb
    unfold getCell
    rw [hcell]
    have hmem : b[i][j] ∈ b.flatten :=
      List.mem_flatten.mpr ⟨b[i], List.getElem_mem hib, List.getElem_mem hjb⟩
    simpa using h _ hmem
  · intro h cell hmem
    obtain ⟨row, hrow, hcell⟩ := List.mem_flatten.mp hmem
    obtain ⟨i, hib, hrowi⟩ := List.mem_iff_getElem.mp hrow
    obtain ⟨j, hjb, hcellj⟩ := List.mem_iff_getElem.mp hcell
    have hiN : i < N := by rw [← hsq.1]; exact hib
    have hjN : j < N := by
      rw [← hsq.2 i hiN, getD_of_lt _ _ hib, hrowi]
      exact hjb
    have hval : getCell b i j = cell := by
      unfold getCell
      rw [getD_of_lt _ _ hib, hrowi, getD_of_lt _ _ hjb, hcellj]
    have hcf : cell = false := by rw [← hval]; exact h i hiN j hjN
    simp [hcf]

/-- A generation attempt is a move sequence: the fold of the scramble
toggles is `applyMoves` over the list of drawn coordinates. -/
theorem scrambleAttempt_eq_applyMoves (N : Nat) (d : Difficulty) (rng : Nat → Nat × Nat) :
    scrambleAttempt N d rng =
      applyMoves N
        ((List.range (scrambleMovesCount N d)).map
          (fun i => (((rng i).1 : Int), ((rng i).2 : Int))))
        (initialBoard N) := by
  unfold scrambleAttempt applyMoves
  rw [List.foldl_map]
  rfl

/-- Every board the generator returns is the outcome of one of its
attempts, and failed the all-off test. -/
theorem createSolvableBoard_some {N : Nat} {d : Difficulty}
    {rng : Nat → Nat → Nat × Nat} {fuel : Nat} {b : Board}
    (h : createSolvableBoard N d rng fuel = some b) :
    ∃ k, b = scrambleAttempt N d (rng k) ∧ isAllOff b = false := by
  induction fuel with
  | zero => simp [createSolvableBoard] at h
  | succ fuel ih =>
    simp only [createSolvableBoard] at h
    split at h
    · exact ih h
    · refine ⟨fuel, ?_, ?_⟩
      · injection h with h2
        exact h2.symm
      · injection h with h2
        subst h2
        simp_all

/-- Reachability from the all-off board by a finite sequence of in-range
moves (the spec's orbit of the all-off board). -/
def Reachable (N : Nat) (b : Board) : Prop :=
  ∃ ms : List (Int × Int),
    (∀ m ∈ ms, 0 ≤ m.1 ∧ m.1 < (N : Int) ∧ 0 ≤ m.2 ∧ m.2 < (N : Int)) ∧
    applyMoves N ms (initialBoard N) = b

/-- The number of in-range cells whose state differs between two boards. -/
def flipCount (bOld bNew : Board) (N : Nat) : Nat :=
  ((Finset.range N ×ˢ Finset.range N).filter
    (fun p => getCell bNew p.1 p.2 ≠ getCell bOld p.1 p.2)).card

theorem xor_ne_self (x h : Bool) : xor x h ≠ x ↔ h = true := by
  cases x <;> cases h <;> simp

/-- The cells changed by one move are exactly the in-range cells hit by its
plus pattern. -/
theorem mem_flipped_iff {b : Board} {N : Nat} (hsq : Square b N) (row col : Int)
    (p : Nat × Nat) :
    (p ∈ (Finset.range N ×ˢ Finset.range N).filter
        (fun q => getCell (toggleCellAndNeighbors row col b N) q.1 q.2 ≠
          getCell b q.1 q.2)) ↔
      p.1 < N ∧ p.2 < N ∧ plusHit row col p.1 p.2 = true := by
  rw [Finset.mem_filter, Finset.mem_product, Finset.mem_range, Finset.mem_range]
  constructor
  · rintro ⟨⟨h1, h2⟩, hne⟩
    refine ⟨h1, h2, ?_⟩
    rw [getCell_toggleCellAndNeighbors hsq h1 h2 row col] at hne
    exact (xor_ne_self _ _).mp hne
  · rintro ⟨h1, h2, hhit⟩
    refine ⟨⟨h1, h2⟩, ?_⟩
    rw [getCell_toggleCellAndNeighbors hsq h1 h2 row col]
    exact (xor_ne_self _ _).mpr hhit

theorem flipCount_le_of_subset {b : Board} {N : Nat} (hsq : Square b N)
    (row col : Int) (S : Finset (Nat × Nat))
    (hS : ∀ p : Nat × Nat, p.1 < N → p.2 < N → plusHit row col p.1 p.2 = true → p ∈ S) :
    flipCount b (toggleCellAndNeighbors row col b N) N ≤ S.card := by
  apply Finset.card_le_card
  intro p hp
  rw [mem_flipped_iff hsq] at hp
  exact hS p hp.1 hp.2.1 hp.2.2

theorem card_triple_le (a b d : Nat × Nat) : ({a, b, d} : Finset (Nat × Nat)).card ≤ 3 := by
  apply le_trans (Finset.card_insert_le _ _)
  have h2 : ({b, d} : Finset (Nat × Nat)).card ≤ 2 := by
    apply le_trans (Finset.card_insert_le _ _)
    simp
  omega

theorem card_quad_le (a b d e : Nat × Nat) :
    ({a, b, d, e} : Finset (Nat × Nat)).card ≤ 4 := by
  apply le_trans (Finset.card_insert_le _ _)
  have h3 := card_triple_le b d e
  omega

/-- Claim C2: the move primitive is an involution: for every board `B` of any
size `N ≥ 1` and every valid coordinate `(r, c)` with `0 ≤ r, c < N`,
applying the move twice at the same target on the same board returns the
original board exactly. -/
theorem applyMove_involution (N : Nat) (_hN : 1 ≤ N) (b : Board) (hsq : Square b N)
    (row col : Int) (_hrow : 0 ≤ row ∧ row < (N : Int)) (_hcol : 0 ≤ col ∧ col < (N : Int)) :
    toggleCellAndNeighbors row col (toggleCellAndNeighbors row col b N) N = b :=
  toggleCellAndNeighbors_involutive hsq row col

theorem applyMove_involution_witness :
    toggleCellAndNeighbors 1 1
      (toggleCellAndNeighbors 1 1 [[true, false, true], [false, true, false], [true, true, false]] 3) 3 =
      [[true, false, true], [false, true, false], [true, true, false]] :=
  applyMove_involution 3 (by decide) _ (by decide) 1 1 (by decide) (by decide)

/-- Claim C3: the move primitive is order-independent: applying two moves in
either order yields the same board, and, more generally, the result of any
sequence of moves depends only on the parity of each distinct coordinate's
occurrence count, not on the order of application. -/
theorem applyMove_order_independent (N : Nat) (b : Board) (hsq : Square b N)
    (r1 c1 r2 c2 : Int)
    (_h1 : 0 ≤ r1 ∧ r1 < (N : Int) ∧ 0 ≤ c1 ∧ c1 < (N : Int))
    (_h2 : 0 ≤ r2 ∧ r2 < (N : Int) ∧ 0 ≤ c2 ∧ c2 < (N : Int)) :
    (toggleCellAndNeighbors r2 c2 (toggleCellAndNeighbors r1 c1 b N) N =
      toggleCellAndNeighbors r1 c1 (toggleCellAndNeighbors r2 c2 b N) N) ∧
    (∀ ms1 ms2 : List (Int × Int), (∀ m, occ ms1 m % 2 = occ ms2 m % 2) →
      applyMoves N ms1 b = applyMoves N ms2 b) :=
  ⟨toggleCellAndNeighbors_comm hsq r1 c1 r2 c2,
    fun ms1 ms2 h => applyMoves_parity_congr hsq ms1 ms2 h⟩

theorem applyMove_order_independent_witness :
    toggleCellAndNeighbors 2 2
      (toggleCellAndNeighbors 0 1 [[true, false, true], [false, true, false], [true, true, false]] 3) 3 =
      toggleCellAndNeighbors 0 1
        (toggleCellAndNeighbors 2 2 [[true, false, true], [false, true, false], [true, true, false]] 3) 3 :=
  (applyMove_order_independent 3 _ (by decide) 0 1 2 2 (by decide) (by decide)).1

/-- Claim C8: won is terminal within a session: once the session's `hasWon`
flag is `true`, any further click returns the session unchanged. -/
theorem click_won_terminal (s : GameSession) (hw : s.hasWon = true) (row col : Int) :
    handleCellClick s row col = s := by
  simp [handleCellClick, hw]

theorem click_won_terminal_witness :
    handleCellClick ⟨[[true, false], [false, true]], 2, 7, true⟩ 0 1 =
      ⟨[[true, false], [false, true]], 2, 7, true⟩ :=
  click_won_terminal _ rfl 0 1

/-- Claim C5: for a session with `hasWon = false` and an in-bounds click at
`(row, col)`, the updated session's board is the move primitive applied to
the old board, its move counter is the old counter plus one, and its won
flag is `true` exactly when every cell of the new board is off. -/
theorem click_applies_move (s : GameSession) (hsq : Square s.board s.boardSize)
    (hw : s.hasWon = false) (row col : Int)
    (_hrow : 0 ≤ row ∧ row < (s.boardSize : Int))
    (_hcol : 0 ≤ col ∧ col < (s.boardSize : Int)) :
    (handleCellClick s row col).board =
      toggleCellAndNeighbors row col s.board s.boardSize ∧
    (handleCellClick s row col).moves = s.moves + 1 ∧
    ((handleCellClick s row col).hasWon = true ↔
      ∀ i < s.boardSize, ∀ j < s.boardSize,
        getCell (handleCellClick s row col).board i j = false) := by
  have hcl : handleCellClick s row col =
      { s with
          board := toggleCellAndNeighbors row col s.board s.boardSize
          moves := s.moves + 1
          hasWon := isAllOff (toggleCellAndNeighbors row col s.board s.boardSize) } := by
    unfold handleCellClick
    rw [if_neg (by simp [hw])]
  rw [hcl]
  exact ⟨rfl, rfl, isAllOff_iff (square_toggleCellAndNeighbors hsq row col)⟩

theorem click_applies_move_witness :
    (handleCellClick ⟨[[true, true], [true, false]], 2, 5, false⟩ 0 0).moves = 5 + 1 ∧
    (handleCellClick ⟨[[true, true], [true, false]], 2, 5, false⟩ 0 0).hasWon = true :=
  ⟨(click_applies_move ⟨[[true, true], [true, false]], 2, 5, false⟩ (by decide) rfl 0 0
      (by decide) (by decide)).2.1,
    ((click_applies_move ⟨[[true, true], [true, false]], 2, 5, false⟩ (by decide) rfl 0 0
      (by decide) (by decide)).2.2).mpr (by decide)⟩

/-- Claim C9 counterexample: the claim "an out-of-bounds click on a
non-won session is a no-op" is false: on the 1×1 session with board
`[[true]]`, clicking the out-of-bounds coordinate `(1, 0)` flips the
in-range neighbor `(0, 0)`, increments the move counter and even sets the
won flag, so the session is not returned unchanged. -/
theorem click_out_of_bounds_counterexample :
    handleCellClick ⟨[[true]], 1, 0, false⟩ 1 0 ≠ ⟨[[true]], 1, 0, false⟩ ∧
    handleCellClick ⟨[[true]], 1, 0, false⟩ 1 0 = ⟨[[false]], 1, 1, true⟩ := by
  constructor
  · decide
  · decide

/-- Claim C9, amended: for a session with `hasWon = false` and an
out-of-bounds `(row, col)`, `handleCellClick` is NOT a no-op: it behaves
exactly as for an in-bounds click, applying the move primitive (which flips
only the in-range cells of the plus pattern), incrementing the move counter,
and recomputing the won flag from the resulting board. -/
theorem click_out_of_bounds_applies_move (s : GameSession) (hw : s.hasWon = false)
    (row col : Int)
    (_hout : ¬(0 ≤ row ∧ row < (s.boardSize : Int) ∧ 0 ≤ col ∧ col < (s.boardSize : Int))) :
    (handleCellClick s row col).board =
      toggleCellAndNeighbors row col s.board s.boardSize ∧
    (handleCellClick s row col).moves = s.moves + 1 ∧
    (handleCellClick s row col).hasWon =
      isAllOff (toggleCellAndNeighbors row col s.board s.boardSize) := by
  unfold handleCellClick
  rw [if_neg (by simp [hw])]
  exact ⟨rfl, rfl, rfl⟩

theorem click_out_of_bounds_applies_move_witness :
    (handleCellClick ⟨[[true]], 1, 0, false⟩ 1 0).moves = 0 + 1 :=
  (click_out_of_bounds_applies_move ⟨[[true]], 1, 0, false⟩ rfl 1 0 (by decide)).2.1

/-- Claim C10: the move primitive is total for every integer target,
including out-of-range ones: it always returns a board of the same `N×N`
shape and flips exactly those cells of the plus pattern that lie within
range; in particular a target one step above the grid still flips its
in-range neighbor, so out-of-range targets are not no-ops in general. -/
theorem applyMove_total (N : Nat) (b : Board) (hsq : Square b N) (row col : Int) :
    Square (toggleCellAndNeighbors row col b N) N ∧
    (∀ i j, i < N → j < N →
      getCell (toggleCellAndNeighbors row col b N) i j =
        xor (getCell b i j) (plusHit row col i j)) ∧
    (∀ c2 : Nat, c2 < N →
      getCell (toggleCellAndNeighbors (-1) (c2 : Int) b N) 0 c2 = !(getCell b 0 c2)) := by
  refine ⟨square_toggleCellAndNeighbors hsq row col,
    fun i j hi hj => getCell_toggleCellAndNeighbors hsq hi hj row col, fun c2 hc2 => ?_⟩
  rw [getCell_toggleCellAndNeighbors hsq (by omega) hc2 (-1) (c2 : Int)]
  have hhit : plusHit (-1) (c2 : Int) 0 c2 = true := by
    simp [plusHit]
  rw [hhit]
  cases getCell b 0 c2 <;> simp

theorem applyMove_total_witness :
    getCell (toggleCellAndNeighbors (-1) 0 [[false, true], [true, true]] 2) 0 0 =
      !(getCell [[false, true], [true, true]] 0 0) :=
  (applyMove_total 2 [[false, true], [true, true]] (by decide) (-1) 0).2.2 0 (by decide)

/-- Claim C4: for every valid target `(r, c)` on a well-formed `N×N` board,
the move primitive flips exactly the target cell and each in-range
orthogonal neighbor and leaves every other cell (diagonals included)
unchanged; consequently, for `N ≥ 3`, a move at a corner flips at most 3
cells, at a non-corner edge cell at most 4, and at an interior cell
exactly 5. -/
theorem applyMove_flips_plus_pattern (N : Nat) (b : Board) (hsq : Square b N)
    (r c : Nat) (hr : r < N) (hc : c < N) :
    (∀ i j, i < N → j < N →
      getCell (toggleCellAndNeighbors r c b N) i j =
        if ((r : Int) = i ∧ (c : Int) = j) ∨ ((r : Int) - 1 = i ∧ (c : Int) = j) ∨
            ((r : Int) + 1 = i ∧ (c : Int) = j) ∨ ((r : Int) = i ∧ (c : Int) - 1 = j) ∨
            ((r : Int) = i ∧ (c : Int) + 1 = j)
          then !(getCell b i j) else getCell b i j) ∧
    (3 ≤ N →
      ((r = 0 ∨ r = N - 1) ∧ (c = 0 ∨ c = N - 1) →
        flipCount b (toggleCellAndNeighbors r c b N) N ≤ 3) ∧
      (((r = 0 ∨ r = N - 1) ∧ 0 < c ∧ c < N - 1) ∨
          ((c = 0 ∨ c = N - 1) ∧ 0 < r ∧ r < N - 1) →
        flipCount b (toggleCellAndNeighbors r c b N) N ≤ 4) ∧
      (0 < r → r < N - 1 → 0 < c → c < N - 1 →
        flipCount b (toggleCellAndNeighbors r c b N) N = 5)) := by
  refine ⟨fun i j hi hj => ?_, fun hN3 => ⟨?_, ?_, ?_⟩⟩
  · rw [getCell_toggleCellAndNeighbors hsq hi hj, plusHit_eq_decide]
    by_cases hP : ((r : Int) = i ∧ (c : Int) = j) ∨ ((r : Int) - 1 = i ∧ (c : Int) = j) ∨
        ((r : Int) + 1 = i ∧ (c : Int) = j) ∨ ((r : Int) = i ∧ (c : Int) - 1 = j) ∨
        ((r : Int) = i ∧ (c : Int) + 1 = j)
    · rw [if_pos hP, decide_eq_true hP]
      cases getCell b i j <;> rfl
    · rw [if_neg hP, decide_eq_false hP]
      cases getCell b i j <;> rfl
  · rintro ⟨hr0 | hr1, hc0 | hc1⟩
    · subst hr0; subst hc0
      refine le_trans (flipCount_le_of_subset hsq _ _ {(0, 0), (1, 0), (0, 1)} ?_)
        (card_triple_le _ _ _)
      intro p h1 h2 hhit
      rw [plusHit_eq_decide, decide_eq_true_eq] at hhit
      simp only [Finset.mem_insert, Finset.mem_singleton, Prod.ext_iff]
      omega
    · subst hr0; subst hc1
      refine le_trans
        (flipCount_le_of_subset hsq _ _ {(0, N - 1), (1, N - 1), (0, N - 2)} ?_)
        (card_triple_le _ _ _)
      intro p h1 h2 hhit
      rw [plusHit_eq_decide, decide_eq_true_eq] at hhit
      simp only [Finset.mem_insert, Finset.mem_singleton, Prod.ext_iff]
      omega
    · subst hr1; subst hc0
      refine le_trans
        (flipCount_le_of_subset hsq _ _ {(N - 1, 0), (N - 2, 0), (N - 1, 1)} ?_)
        (card_triple_le _ _ _)
      intro p h1 h2 hhit
      rw [plusHit_eq_decide, decide_eq_true_eq] at hhit
      simp only [Finset.mem_insert, Finset.mem_singleton, Prod.ext_iff]
      omega
    · subst hr1; subst hc1
      refine le_trans
        (flipCount_le_of_subset hsq _ _ {(N - 1, N - 1), (N - 2, N - 1), (N - 1, N - 2)} ?_)
        (card_triple_le _ _ _)
      intro p h1 h2 hhit
      rw [plusHit_eq_decide, decide_eq_true_eq] at hhit
      simp only [Finset.mem_insert, Finset.mem_singleton, Prod.ext_iff]
      omega
  · rintro (⟨hr0 | hr1, hcl, hcu⟩ | ⟨hc0 | hc1, hrl, hru⟩)
    · subst hr0
      refine le_trans
        (flipCount_le_of_subset hsq _ _ {(0, c), (1, c), (0, c - 1), (0, c + 1)} ?_)
        (card_quad_le _ _ _ _)
      intro p h1 h2 hhit
      rw [plusHit_eq_decide, decide_eq_true_eq] at hhit
      simp only [Finset.mem_insert, Finset.mem_singleton, Prod.ext_iff]
      omega
    · subst hr1
      refine le_trans
        (flipCount_le_of_subset hsq _ _
          {(N - 1, c), (N - 2, c), (N - 1, c - 1), (N - 1, c + 1)} ?_)
        (card_quad_le _ _ _ _)
      intro p h1 h2 hhit
      rw [plusHit_eq_decide, decide_eq_true_eq] at hhit
      simp only [Finset.mem_insert, Finset.mem_singleton, Prod.ext_iff]
      omega
    · subst hc0
      refine le_trans
        (flipCount_le_of_subset hsq _ _ {(r, 0), (r - 1, 0), (r + 1, 0), (r, 1)} ?_)
        (card_quad_le _ _ _ _)
      intro p h1 h2 hhit
      rw [plusHit_eq_decide, decide_eq_true_eq] at hhit
      simp only [Finset.mem_insert, Finset.mem_singleton, Prod.ext_iff]
      omega
    · subst hc1
      refine le_trans
        (flipCount_le_of_subset hsq _ _
          {(r, N - 1), (r - 1, N - 1), (r + 1, N - 1), (r, N - 2)} ?_)
        (card_quad_le _ _ _ _)
      intro p h1 h2 hhit
      rw [plusHit_eq_decide, decide_eq_true_eq] at hhit
      simp only [Finset.mem_insert, Finset.mem_singleton, Prod.ext_iff]
      omega
  · intro hrl hru hcl hcu
    have hset : (Finset.range N ×ˢ Finset.range N).filter
        (fun q => getCell (toggleCellAndNeighbors r c b N) q.1 q.2 ≠ getCell b q.1 q.2) =
        {((r : Nat), c), (r - 1, c), (r + 1, c), (r, c - 1), (r, c + 1)} := by
      apply Finset.ext
      intro p
      rw [mem_flipped_iff hsq, plusHit_eq_decide, decide_eq_true_eq]
      simp only [Finset.mem_insert, Finset.mem_singleton, Prod.ext_iff]
      omega
    unfold flipCount
    rw [hset]
    rw [Finset.card_insert_of_not_mem
        (by simp only [Finset.mem_insert, Finset.mem_singleton, Prod.ext_iff]; omega),
      Finset.card_insert_of_not_mem
        (by simp only [Finset.mem_insert, Finset.mem_singleton, Prod.ext_iff]; omega),
      Finset.card_insert_of_not_mem
        (by simp only [Finset.mem_insert, Finset.mem_singleton, Prod.ext_iff]; omega),
      Finset.card_insert_of_not_mem
        (by simp only [Finset.mem_singleton, Prod.ext_iff]; omega),
      Finset.card_singleton]

theorem applyMove_flips_plus_pattern_witness :
    flipCount [[false, false, false], [false, false, false], [false, false, false]]
      (toggleCellAndNeighbors 1 1
        [[false, false, false], [false, false, false], [false, false, false]] 3) 3 = 5 :=
  ((applyMove_flips_plus_pattern 3 _ (by decide) 1 1 (by decide) (by decide)).2
    (by decide)).2.2 (by decide) (by decide) (by decide) (by decide)

/-- Claim C7: each generation attempt starts from the all-off `N×N` board
and applies exactly `M` move-primitive applications at the drawn in-range
coordinates, where `M` is `floor(1.5·N)` for easy, `floor(2.5·N)` for
medium (the default), and `N²` for hard. -/
theorem scramble_attempt_spec (N : Nat) (d : Difficulty) (rng : Nat → Nat × Nat) :
    scrambleAttempt N d rng =
      applyMoves N
        ((List.range (scrambleMovesCount N d)).map
          (fun i => (((rng i).1 : Int), ((rng i).2 : Int))))
        (initialBoard N) ∧
    ((List.range (scrambleMovesCount N d)).map
      (fun i => (((rng i).1 : Int), ((rng i).2 : Int)))).length = scrambleMovesCount N d ∧
    isAllOff (initialBoard N) = true ∧
    Square (initialBoard N) N ∧
    scrambleMovesCount N Difficulty.easy = Nat.floor ((1.5 : ℚ) * N) ∧
    scrambleMovesCount N Difficulty.medium = Nat.floor ((2.5 : ℚ) * N) ∧
    scrambleMovesCount N Difficulty.hard = N * N := by
  refine ⟨scrambleAttempt_eq_applyMoves N d rng, by simp, isAllOff_initialBoard N,
    square_initialBoard N, ?_, ?_, rfl⟩
  · have h : (1.5 : ℚ) * N = ((3 * N : ℕ) : ℚ) / ((2 : ℕ) : ℚ) := by push_cast; ring
    rw [h, Nat.floor_div_nat, Nat.floor_natCast]
    rfl
  · have h : (2.5 : ℚ) * N = ((5 * N : ℕ) : ℚ) / ((2 : ℕ) : ℚ) := by push_cast; ring
    rw [h, Nat.floor_div_nat, Nat.floor_natCast]
    rfl

/-- Claim C1: every board the generator returns is reachable from the
all-off `N×N` board by a finite sequence of in-range moves, and,
equivalently, some finite sequence of in-range moves returns it to the
all-off board, so the puzzle is solvable. -/
theorem generator_solvable (N : Nat) (_hN : 1 ≤ N) (d : Difficulty)
    (rng : Nat → Nat → Nat × Nat)
    (hrng : ∀ k i, (rng k i).1 < N ∧ (rng k i).2 < N)
    (fuel : Nat) (b : Board)
    (hgen : createSolvableBoard N d rng fuel = some b) :
    Reachable N b ∧
      ∃ ms : List (Int × Int),
        (∀ m ∈ ms, 0 ≤ m.1 ∧ m.1 < (N : Int) ∧ 0 ≤ m.2 ∧ m.2 < (N : Int)) ∧
        applyMoves N ms b = initialBoard N := by
  obtain ⟨k, hb, -⟩ := createSolvableBoard_some hgen
  have hms : ∀ m ∈ (List.range (scrambleMovesCount N d)).map
      (fun i => (((rng k i).1 : Int), ((rng k i).2 : Int))),
      0 ≤ m.1 ∧ m.1 < (N : Int) ∧ 0 ≤ m.2 ∧ m.2 < (N : Int) := by
    intro m hm
    obtain ⟨i, -, rfl⟩ := List.mem_map.mp hm
    have h1 := (hrng k i).1
    have h2 := (hrng k i).2
    refine ⟨?_, ?_, ?_, ?_⟩
    · show (0 : Int) ≤ ((rng k i).1 : Int)
      omega
    · show ((rng k i).1 : Int) < (N : Int)
      exact_mod_cast h1
    · show (0 : Int) ≤ ((rng k i).2 : Int)
      omega
    · show ((rng k i).2 : Int) < (N : Int)
      exact_mod_cast h2
  have hreach : applyMoves N
      ((List.range (scrambleMovesCount N d)).map
        (fun i => (((rng k i).1 : Int), ((rng k i).2 : Int))))
      (initialBoard N) = b := by
    rw [← scrambleAttempt_eq_applyMoves N d (rng k)]
    exact hb.symm
  refine ⟨⟨_, hms, hreach⟩,
    ⟨((List.range (scrambleMovesCount N d)).map
      (fun i => (((rng k i).1 : Int), ((rng k i).2 : Int)))).reverse, ?_, ?_⟩⟩
  · intro m hm
    exact hms m (List.mem_reverse.mp hm)
  · rw [← hreach]
    exact applyMoves_reverse _ (square_initialBoard N)

theorem generator_solvable_witness : Reachable 1 [[true]] :=
  (generator_solvable 1 (by decide) Difficulty.hard (fun _ _ => (0, 0))
    (fun _ _ => ⟨Nat.zero_lt_one, Nat.zero_lt_one⟩) 1 [[true]] (by decide)).1

/-- Claim C6: the generator never returns the all-off board: any board it
returns fails the all-off test and has at least one cell on (an attempt
whose scramble cancels out is discarded and regenerated). -/
theorem generator_never_all_off (N : Nat) (_hN : 1 ≤ N) (d : Difficulty)
    (rng : Nat → Nat → Nat × Nat) (fuel : Nat) (b : Board)
    (hgen : createSolvableBoard N d rng fuel = some b) :
    isAllOff b = false ∧ ∃ i < N, ∃ j < N, getCell b i j = true := by
  obtain ⟨k, hb, hoff⟩ := createSolvableBoard_some hgen
  have hsq : Square b N := by
    rw [hb, scrambleAttempt_eq_applyMoves]
    exact square_applyMoves _ (square_initialBoard N)
  refine ⟨hoff, ?_⟩
  by_contra hno
  push_neg at hno
  have hall : isAllOff b = true :=
    (isAllOff_iff hsq).mpr fun i hi j hj => (Bool.not_eq_true _) ▸ hno i hi j hj
  rw [hoff] at hall
  exact Bool.false_ne_true hall

theorem generator_never_all_off_witness : isAllOff [[true]] = false :=
  (generator_never_all_off 1 (by decide) Difficulty.hard (fun _ _ => (0, 0)) 1 [[true]]
    (by decide)).1

end LightsOff
